import Mathlib

/-!
Verification of the `ewt-gen` configuration resolution and synthesis pipeline
(`src/ewt/cli.py`, `src/ewt/generator.py`) against its specification.

Python strings are modelled as `List Char` (type `Str` below); string methods
(`lower`, `upper`, `replace`, `rstrip`, `lstrip`) are given explicit executable
definitions with ASCII case mapping, matching the ASCII chip-family and URL
strings the pipeline works with.
-/

set_option maxHeartbeats 1000000
set_option maxRecDepth 100000

/-- Python strings, modelled as lists of characters. -/
abbrev Str := List Char

/-- Coerce a Lean string literal to the `Str` model. -/
def chars (s : String) : Str := s.data

/-- The ASCII case-pair table: each lower-case letter with its upper-case
counterpart. -/
def casePairs : List (Char × Char) :=
  [('a','A'),('b','B'),('c','C'),('d','D'),('e','E'),('f','F'),('g','G'),
   ('h','H'),('i','I'),('j','J'),('k','K'),('l','L'),('m','M'),('n','N'),
   ('o','O'),('p','P'),('q','Q'),('r','R'),('s','S'),('t','T'),('u','U'),
   ('v','V'),('w','W'),('x','X'),('y','Y'),('z','Z')]

/-- ASCII lower-casing of a single character (model of `str.lower` per char). -/
def asciiLowerChar (c : Char) : Char :=
  ((casePairs.find? (fun p => p.2 = c)).map Prod.fst).getD c

/-- ASCII upper-casing of a single character (model of `str.upper` per char). -/
def asciiUpperChar (c : Char) : Char :=
  ((casePairs.find? (fun p => p.1 = c)).map Prod.snd).getD c

/-- Model of Python `str.lower()` (ASCII). -/
def pyLower (s : Str) : Str := s.map asciiLowerChar

/-- Model of Python `str.upper()` (ASCII). -/
def pyUpper (s : Str) : Str := s.map asciiUpperChar

/-- The ASCII lower-case letters; used for case analysis. -/
def lowerLetters : List Char := casePairs.map Prod.fst

theorem asciiUpperChar_eq_self {c : Char} (h : c ∉ lowerLetters) :
    asciiUpperChar c = c := by
  have hf : casePairs.find? (fun p => p.1 = c) = none := by
    rw [List.find?_eq_none]
    intro p hp
    simp only [decide_eq_true_eq]
    intro hpc
    exact h (hpc ▸ List.mem_map_of_mem Prod.fst hp)
  unfold asciiUpperChar
  rw [hf]
  rfl

theorem asciiLowerChar_asciiUpperChar (c : Char) :
    asciiLowerChar (asciiUpperChar c) = asciiLowerChar c := by
  by_cases h : c ∈ lowerLetters
  · fin_cases h <;> rfl
  · rw [asciiUpperChar_eq_self h]

theorem asciiUpperChar_asciiUpperChar (c : Char) :
    asciiUpperChar (asciiUpperChar c) = asciiUpperChar c := by
  by_cases h : c ∈ lowerLetters
  · fin_cases h <;> rfl
  · rw [asciiUpperChar_eq_self h, asciiUpperChar_eq_self h]

theorem pyLower_pyUpper (s : Str) : pyLower (pyUpper s) = pyLower s := by
  simp only [pyLower, pyUpper, List.map_map]
  exact List.map_congr_left fun c _ => asciiLowerChar_asciiUpperChar c

theorem pyUpper_pyUpper (s : Str) : pyUpper (pyUpper s) = pyUpper s := by
  simp only [pyUpper, List.map_map]
  exact List.map_congr_left fun c _ => asciiUpperChar_asciiUpperChar c

/-- First-match association-list lookup (model of Python `dict` access with
string keys; `dict.get(k, d)` is `(alookup k m).getD d`). -/
def alookup {α : Type} (k : Str) : List (Str × α) → Option α
  | [] => none
  | (k', v) :: rest => if k = k' then some v else alookup k rest

theorem alookup_mem_pair {α : Type} {k : Str} {v : α} :
    ∀ {l : List (Str × α)}, alookup k l = some v → ∃ k', (k', v) ∈ l := by
  intro l
  induction l with
  | nil => intro h; simp [alookup] at h
  | cons p rest ih =>
      intro h
      by_cases hk : k = p.1
      · refine ⟨p.1, ?_⟩
        simp [alookup, hk] at h
        simp [← h]
      · have := by simpa [alookup, hk] using h
        obtain ⟨k', hk'⟩ := ih this
        exact ⟨k', List.mem_cons_of_mem _ hk'⟩

/-- The alias table of `normalize_chip_family` (cli.py lines 388-397). -/
def chipAliasTable : List (Str × Str) :=
  [(chars "esp32", chars "ESP32"),
   (chars "esp32c3", chars "ESP32-C3"),
   (chars "esp32-c3", chars "ESP32-C3"),
   (chars "esp32s2", chars "ESP32-S2"),
   (chars "esp32-s2", chars "ESP32-S2"),
   (chars "esp32s3", chars "ESP32-S3"),
   (chars "esp32-s3", chars "ESP32-S3"),
   (chars "esp8266", chars "ESP8266")]

/-- `normalize_chip_family` (cli.py lines 386-398):
`mapping.get(chip_family.lower(), chip_family.upper())`. -/
def normalize_chip_family (chip_family : Str) : Str :=
  (alookup (pyLower chip_family) chipAliasTable).getD (pyUpper chip_family)

/-- Claimed algorithm of C3, built from the spec's words: case-fold, strip
every hyphen, then look the result up in a fixed alias table (whose keys are
consequently hyphen-free); unrecognized input is returned upper-cased. -/
def normalize_chip_family_claimed (chip_family : Str) : Str :=
  let key := (pyLower chip_family).filter (fun c => c ≠ '-')
  (alookup key
      [(chars "esp32", chars "ESP32"),
       (chars "esp32c3", chars "ESP32-C3"),
       (chars "esp32s2", chars "ESP32-S2"),
       (chars "esp32s3", chars "ESP32-S3"),
       (chars "esp8266", chars "ESP8266")]).getD (pyUpper chip_family)

/-- Claim C3 (counterexample): the code does not strip hyphens before the
table lookup — the table merely contains both hyphenated and unhyphenated
alias spellings.  On input `"-esp32"` the claimed strip-then-map algorithm
yields `"ESP32"`, while the code leaves the lookup key `"-esp32"` unmatched
and returns the upper-cased passthrough `"-ESP32"`. -/
theorem normalize_chip_family_not_strip_hyphens :
    normalize_chip_family (chars "-esp32") = chars "-ESP32" ∧
    normalize_chip_family_claimed (chars "-esp32") = chars "ESP32" ∧
    normalize_chip_family (chars "-esp32") ≠
      normalize_chip_family_claimed (chars "-esp32") := by
  refine ⟨by decide, by decide, by decide⟩

/-- Claim C3 (amended): `normalize_chip_family` case-folds its input and maps
it through a fixed alias table that itself lists hyphenated and unhyphenated
alias spellings (no separate hyphen stripping).  It is total: every non-empty
input yields a non-empty output.  The aliases `esp32c3`, `esp32-c3` and
`ESP32C3` all normalize to `ESP32-C3`, and any input whose case-folded form is
not in the table is returned upper-cased rather than rejected. -/
theorem normalize_chip_family_amended :
    (∀ s : Str, s ≠ [] → normalize_chip_family s ≠ []) ∧
    normalize_chip_family (chars "esp32c3") = chars "ESP32-C3" ∧
    normalize_chip_family (chars "esp32-c3") = chars "ESP32-C3" ∧
    normalize_chip_family (chars "ESP32C3") = chars "ESP32-C3" ∧
    (∀ s : Str, alookup (pyLower s) chipAliasTable = none →
      normalize_chip_family s = pyUpper s) := by
  refine ⟨?_, by decide, by decide, by decide, ?_⟩
  · intro s hne
    unfold normalize_chip_family
    cases h : alookup (pyLower s) chipAliasTable with
    | some v =>
        obtain ⟨k', hmem⟩ := alookup_mem_pair h
        have hvals : ∀ p ∈ chipAliasTable, p.2 ≠ ([] : Str) := by decide
        simpa using hvals _ hmem
    | none =>
        simp only [Option.getD_none]
        intro hu
        exact hne (by simpa [pyUpper] using hu)
  · intro s h
    simp [normalize_chip_family, h]

/-- Witness for the amended C3 theorem at concrete inputs. -/
theorem normalize_chip_family_amended_witness :
    normalize_chip_family (chars "rp2040") ≠ [] ∧
    normalize_chip_family (chars "rp2040") = pyUpper (chars "rp2040") :=
  ⟨normalize_chip_family_amended.1 (chars "rp2040") (by decide),
   normalize_chip_family_amended.2.2.2.2 (chars "rp2040") (by decide)⟩

/-- Claim C10: chip-family normalization is idempotent — every output of
`normalize_chip_family` (canonical table value or upper-cased passthrough) is
a fixed point of `normalize_chip_family`. -/
theorem normalize_chip_family_idem (s : Str) :
    normalize_chip_family (normalize_chip_family s) = normalize_chip_family s := by
  cases h : alookup (pyLower s) chipAliasTable with
  | some v =>
      have hs : normalize_chip_family s = v := by
        simp [normalize_chip_family, h]
      obtain ⟨k', hmem⟩ := alookup_mem_pair h
      have hvals : ∀ p ∈ chipAliasTable,
          normalize_chip_family p.2 = p.2 := by decide
      rw [hs]
      exact hvals _ hmem
  | none =>
      have hs : normalize_chip_family s = pyUpper s := by
        simp [normalize_chip_family, h]
      rw [hs]
      unfold normalize_chip_family
      rw [pyLower_pyUpper, h]
      simp [Option.getD_none, pyUpper_pyUpper]

/-- `strStarts pat s` is true when `pat` is a leading run of `s`. -/
def strStarts : Str → Str → Bool
  | [], _ => true
  | _ :: _, [] => false
  | p :: ps, c :: cs => p = c && strStarts ps cs

/-- Model of Python's `needle in hay` substring test. -/
def inStr (needle : Str) : Str → Bool
  | [] => needle.isEmpty
  | c :: rest => strStarts needle (c :: rest) || inStr needle rest

/-- Parsed YAML values (the generic ConfigDocument tree of spec section 3):
strings, null, ordered sequences and ordered mappings with string keys. -/
inductive YVal where
  | str : Str → YVal
  | null : YVal
  | seq : List YVal → YVal
  | map : List (Str × YVal) → YVal

/-- Model of `section.get(key, default)` where the caller then uses the value
as a string: `some s` when the key is absent (giving the default) or maps to
a string, `none` when the section is not a mapping or the value is not a
string (a Python `AttributeError`/`TypeError` in the source). -/
def getStrField (v : YVal) (k : Str) (dflt : Str) : Option Str :=
  match v with
  | .map m =>
      match alookup k m with
      | none => some dflt
      | some (.str s) => some s
      | some _ => none
  | _ => none

/-- The board-substring checks of `detect_chip_family` (cli.py lines 368-377):
`c3`, `s2`, `s3` looked for in the lower-cased board name, in that order. -/
def esp32BoardFamily (board : Str) : Str :=
  let board_lower := pyLower board
  if inStr (chars "c3") board_lower then chars "ESP32-C3"
  else if inStr (chars "s2") board_lower then chars "ESP32-S2"
  else if inStr (chars "s3") board_lower then chars "ESP32-S3"
  else chars "ESP32"

/-- The variant checks of `detect_chip_family` (cli.py lines 359-366), on the
already upper-cased variant string. -/
def esp32VariantFamily (variant : Str) : Option Str :=
  if variant ≠ [] then
    if variant = chars "ESP32C3" ∨ variant = chars "ESP32-C3" then
      some (chars "ESP32-C3")
    else if variant = chars "ESP32S2" ∨ variant = chars "ESP32-S2" then
      some (chars "ESP32-S2")
    else if variant = chars "ESP32S3" ∨ variant = chars "ESP32-S3" then
      some (chars "ESP32-S3")
    else none
  else none

/-- `detect_chip_family` (cli.py lines 351-383), modelled over the parsed
configuration mapping.  The outer `Option` models a Python exception when an
`esp32` section is not a mapping of string fields; `some r` is the returned
value, with `r = none` the undetected signal (`None`). -/
def detect_chip_family (config : List (Str × YVal)) : Option (Option Str) :=
  match alookup (chars "esp32") config with
  | some esp32_config =>
      match getStrField esp32_config (chars "board") [] with
      | none => none
      | some board =>
          match getStrField esp32_config (chars "variant") [] with
          | none => none
          | some variantRaw =>
              match esp32VariantFamily (pyUpper variantRaw) with
              | some fam => some (some fam)
              | none => some (some (esp32BoardFamily board))
  | none =>
      match alookup (chars "esp8266") config with
      | some _ => some (some (chars "ESP8266"))
      | none => some none

/-- Case-insensitive string equality (ASCII), used to phrase the claim. -/
def ciEq (a b : Str) : Prop := pyUpper a = pyUpper b

instance (a b : Str) : Decidable (ciEq a b) := by
  unfold ciEq; infer_instance

/-- Chip-family detection as claim C2 words it: with an `esp32` section, the
`variant` field is read first and compared case-insensitively against the
names of the C3/S2/S3 sub-variants; otherwise the `board` field is checked
for the substrings `c3`, `s2`, `s3` in that order; otherwise the base
`ESP32`.  With an `esp8266` section, `ESP8266`; else the undetected signal. -/
def detect_chip_family_claimed (config : List (Str × YVal)) : Option (Option Str) :=
  match alookup (chars "esp32") config with
  | some esp32_config =>
      match getStrField esp32_config (chars "board") [] with
      | none => none
      | some board =>
          match getStrField esp32_config (chars "variant") [] with
          | none => none
          | some variantRaw =>
              if ciEq variantRaw (chars "esp32c3") ∨ ciEq variantRaw (chars "esp32-c3") then
                some (some (chars "ESP32-C3"))
              else if ciEq variantRaw (chars "esp32s2") ∨ ciEq variantRaw (chars "esp32-s2") then
                some (some (chars "ESP32-S2"))
              else if ciEq variantRaw (chars "esp32s3") ∨ ciEq variantRaw (chars "esp32-s3") then
                some (some (chars "ESP32-S3"))
              else
                some (some (esp32BoardFamily board))
  | none =>
      match alookup (chars "esp8266") config with
      | some _ => some (some (chars "ESP8266"))
      | none => some none

theorem esp32VariantFamily_ciEq (v : Str) :
    esp32VariantFamily (pyUpper v) =
      (if ciEq v (chars "esp32c3") ∨ ciEq v (chars "esp32-c3") then
        some (chars "ESP32-C3")
      else if ciEq v (chars "esp32s2") ∨ ciEq v (chars "esp32-s2") then
        some (chars "ESP32-S2")
      else if ciEq v (chars "esp32s3") ∨ ciEq v (chars "esp32-s3") then
        some (chars "ESP32-S3")
      else none) := by
  have h1 : ciEq v (chars "esp32c3") ↔ pyUpper v = chars "ESP32C3" := by
    unfold ciEq
    rw [show pyUpper (chars "esp32c3") = chars "ESP32C3" from by decide]
  have h2 : ciEq v (chars "esp32-c3") ↔ pyUpper v = chars "ESP32-C3" := by
    unfold ciEq
    rw [show pyUpper (chars "esp32-c3") = chars "ESP32-C3" from by decide]
  have h3 : ciEq v (chars "esp32s2") ↔ pyUpper v = chars "ESP32S2" := by
    unfold ciEq
    rw [show pyUpper (chars "esp32s2") = chars "ESP32S2" from by decide]
  have h4 : ciEq v (chars "esp32-s2") ↔ pyUpper v = chars "ESP32-S2" := by
    unfold ciEq
    rw [show pyUpper (chars "esp32-s2") = chars "ESP32-S2" from by decide]
  have h5 : ciEq v (chars "esp32s3") ↔ pyUpper v = chars "ESP32S3" := by
    unfold ciEq
    rw [show pyUpper (chars "esp32s3") = chars "ESP32S3" from by decide]
  have h6 : ciEq v (chars "esp32-s3") ↔ pyUpper v = chars "ESP32-S3" := by
    unfold ciEq
    rw [show pyUpper (chars "esp32-s3") = chars "ESP32-S3" from by decide]
  simp only [h1, h2, h3, h4, h5, h6]
  unfold esp32VariantFamily
  by_cases hv : pyUpper v = []
  · rw [hv]
    decide
  · simp [hv]

/-- Claim C2: chip-family detection follows exactly the claimed decision
order (variant sub-names case-insensitively first, then board substrings
`c3`, `s2`, `s3` in that order, then `ESP32`; an `esp8266` section gives
`ESP8266`; otherwise the undetected signal), and in particular a config whose
`esp32` section has a board field containing `s3` (and no variant field)
detects as `ESP32-S3`. -/
theorem detect_chip_family_matches_claim :
    (∀ config : List (Str × YVal),
      detect_chip_family config = detect_chip_family_claimed config) ∧
    detect_chip_family
        [(chars "esp32", .map [(chars "board", .str (chars "esp32-s3-devkitc-1"))])] =
      some (some (chars "ESP32-S3")) := by
  constructor
  · intro config
    unfold detect_chip_family detect_chip_family_claimed
    cases alookup (chars "esp32") config with
    | none => rfl
    | some esp32_config =>
        dsimp only
        cases getStrField esp32_config (chars "board") [] with
        | none => rfl
        | some board =>
            dsimp only
            cases getStrField esp32_config (chars "variant") [] with
            | none => rfl
            | some variantRaw =>
                dsimp only
                rw [esp32VariantFamily_ciEq]
                split_ifs <;> rfl
  · rfl

/-- JSON values, for the manifest wire contract. -/
inductive JVal where
  | s : Str → JVal
  | n : Nat → JVal
  | arr : List JVal → JVal
  | obj : List (Str × JVal) → JVal

/-- `generate_manifest` (generator.py lines 84-101): the manifest is an
ordered dictionary, modelled as the association list of its entries in
insertion order; `version` and `home_assistant_domain` are appended only when
the version is truthy (present and non-empty). -/
def generate_manifest (name chip_family : Str) (version : Option Str) : List (Str × JVal) :=
  let manifest :=
    [(chars "name", JVal.s name),
     (chars "builds", JVal.arr
       [JVal.obj
         [(chars "chipFamily", JVal.s chip_family),
          (chars "parts", JVal.arr
            [JVal.obj
              [(chars "path", JVal.s (chars "firmware.bin")),
               (chars "offset", JVal.n 0)]])]])]
  match version with
  | some v =>
      if v ≠ [] then
        manifest ++
          [(chars "version", JVal.s v),
           (chars "home_assistant_domain", JVal.s (chars "esphome"))]
      else manifest
  | none => manifest

/-- Claim C5: the manifest has exactly the shape
`{name, version?, home_assistant_domain?, builds: [{chipFamily, parts:
[{path: "firmware.bin", offset: 0}]}]}`; with no known version the `version`
key is omitted entirely, and the `home_assistant_domain` key (with value
`esphome`) is present exactly when `version` is present. -/
theorem generate_manifest_shape :
    (∀ name chip_family : Str,
      generate_manifest name chip_family none =
        [(chars "name", JVal.s name),
         (chars "builds", JVal.arr
           [JVal.obj
             [(chars "chipFamily", JVal.s chip_family),
              (chars "parts", JVal.arr
                [JVal.obj
                  [(chars "path", JVal.s (chars "firmware.bin")),
                   (chars "offset", JVal.n 0)]])]])]) ∧
    (∀ (name chip_family v : Str), v ≠ [] →
      generate_manifest name chip_family (some v) =
        [(chars "name", JVal.s name),
         (chars "builds", JVal.arr
           [JVal.obj
             [(chars "chipFamily", JVal.s chip_family),
              (chars "parts", JVal.arr
                [JVal.obj
                  [(chars "path", JVal.s (chars "firmware.bin")),
                   (chars "offset", JVal.n 0)]])]]),
         (chars "version", JVal.s v),
         (chars "home_assistant_domain", JVal.s (chars "esphome"))]) ∧
    (∀ (name chip_family : Str) (version : Option Str),
      ((chars "version") ∈ (generate_manifest name chip_family version).map Prod.fst ↔
        (chars "home_assistant_domain") ∈
          (generate_manifest name chip_family version).map Prod.fst)) := by
  refine ⟨fun name chip => rfl, fun name chip v hv => by simp [generate_manifest, hv], ?_⟩
  intro name chip version
  cases version with
  | none =>
      simp only [generate_manifest, List.map_cons, List.map_nil]
      constructor <;> (intro h; revert h; decide)
  | some v =>
      by_cases hv : v = []
      · simp only [generate_manifest, hv, ne_eq, not_true_eq_false, if_false,
          List.map_cons, List.map_nil]
        constructor <;> (intro h; revert h; decide)
      · simp only [generate_manifest, hv, ne_eq, not_false_iff, if_true,
          List.map_append, List.map_cons, List.map_nil]
        constructor <;> (intro _; decide)

/-- Witness for the C5 theorem at concrete inputs. -/
theorem generate_manifest_shape_witness :
    generate_manifest (chars "Kitchen") (chars "ESP32") (some (chars "1.2.3")) =
      [(chars "name", JVal.s (chars "Kitchen")),
       (chars "builds", JVal.arr
         [JVal.obj
           [(chars "chipFamily", JVal.s (chars "ESP32")),
            (chars "parts", JVal.arr
              [JVal.obj
                [(chars "path", JVal.s (chars "firmware.bin")),
                 (chars "offset", JVal.n 0)]])]]),
       (chars "version", JVal.s (chars "1.2.3")),
       (chars "home_assistant_domain", JVal.s (chars "esphome"))] :=
  generate_manifest_shape.2.1 (chars "Kitchen") (chars "ESP32") (chars "1.2.3")
    (by decide)

/-- One pass of Python `str.replace` for a non-empty pattern, with explicit
fuel (always instantiated with the input length, which bounds the number of
steps): at each position, if the pattern starts here emit the replacement and
skip the pattern, else keep the character and move on.  Replaced text is not
re-scanned within the pass. -/
def pyReplaceFuel (pat repl : Str) : Nat → Str → Str
  | 0, s => s
  | _ + 1, [] => []
  | n + 1, c :: rest =>
      if strStarts pat (c :: rest) then
        repl ++ pyReplaceFuel pat repl n (rest.drop (pat.length - 1))
      else
        c :: pyReplaceFuel pat repl n rest

/-- Python `value.replace(pat, repl)` (single full pass).  The empty-pattern
branch mirrors Python's interleaving semantics; it is never reached by the
expander, whose patterns always have at least three characters. -/
def pyReplace (pat repl s : Str) : Str :=
  if pat.isEmpty then repl ++ (s.map (fun c => c :: repl)).flatten
  else pyReplaceFuel pat repl s.length s

/-- The closure `expand_substitutions` of `main` (cli.py lines 89-95), on
string values: for each `(key, value)` pair of the substitution table in
declaration order, replace every occurrence of the placeholder
`"$" "{" key "}"` by the value (already taken through `str`). -/
def expand_substitutions (substitutions : List (Str × Str)) (value : Str) : Str :=
  substitutions.foldl
    (fun value kv => pyReplace (chars "$\x7b" ++ kv.1 ++ chars "\x7d") kv.2 value)
    value

/-- `expand_substitutions` on an arbitrary YAML value: non-string inputs are
returned unchanged (the `isinstance(value, str)` guard, cli.py line 91). -/
def expand_substitutions_val (substitutions : List (Str × Str)) : YVal → YVal
  | .str s => .str (expand_substitutions substitutions s)
  | v => v

/-- Modelled from the claim C4's words: expansion in which a substituted
value is never itself re-scanned for further placeholders.  Substituted
spans are marked protected and later table entries rewrite only unprotected
spans. -/
def splitReplFuel (pat repl : Str) : Nat → Str → List (Bool × Str)
  | 0, s => [(false, s)]
  | _ + 1, [] => []
  | n + 1, c :: rest =>
      if strStarts pat (c :: rest) then
        (true, repl) :: splitReplFuel pat repl n (rest.drop (pat.length - 1))
      else
        (false, [c]) :: splitReplFuel pat repl n rest

/-- Modelled from the claim C4's words: one replacement pass over a
segmented string, leaving protected segments untouched. -/
def replaceSegs (pat repl : Str) : List (Bool × Str) → List (Bool × Str)
  | [] => []
  | (true, s) :: rest => (true, s) :: replaceSegs pat repl rest
  | (false, s) :: rest => splitReplFuel pat repl s.length s ++ replaceSegs pat repl rest

/-- Modelled from the claim C4's words: the whole expansion under the
"substituted values are never re-scanned" reading. -/
def expand_substitutions_norescan (substitutions : List (Str × Str)) (value : Str) : Str :=
  ((substitutions.foldl
      (fun segs kv => replaceSegs (chars "$\x7b" ++ kv.1 ++ chars "\x7d") kv.2 segs)
      [(false, value)]).map Prod.snd).flatten

theorem strStarts_exists {pat : Str} :
    ∀ {s : Str}, strStarts pat s = true ↔ ∃ t, s = pat ++ t := by
  induction pat with
  | nil => intro s; simp [strStarts]
  | cons p ps ih =>
      intro s
      cases s with
      | nil => simp [strStarts]
      | cons c cs =>
          simp only [strStarts, Bool.and_eq_true, decide_eq_true_eq, ih,
            List.cons_append, List.cons.injEq]
          constructor
          · rintro ⟨hpc, t, ht⟩; exact ⟨t, hpc.symm, ht⟩
          · rintro ⟨t, hcp, ht⟩; exact ⟨hcp.symm, t, ht⟩

theorem pyReplaceFuel_id (pat repl : Str) :
    ∀ (n : Nat) (s : Str), (¬ ∃ a b, s = a ++ pat ++ b) →
      pyReplaceFuel pat repl n s = s := by
  intro n
  induction n with
  | zero => intro s _; rfl
  | succ n ih =>
      intro s hno
      cases s with
      | nil => rfl
      | cons c rest =>
          have hs : strStarts pat (c :: rest) = false := by
            cases h : strStarts pat (c :: rest) with
            | true =>
                obtain ⟨t, ht⟩ := strStarts_exists.mp h
                exact absurd ⟨[], t, by simpa using ht⟩ hno
            | false => rfl
          rw [pyReplaceFuel, hs]
          simp only [Bool.false_eq_true, if_false, List.cons.injEq, true_and]
          exact ih rest fun ⟨a, b, hab⟩ => hno ⟨c :: a, b, by simp [hab]⟩

theorem pyReplace_id (pt repl s : Str)
    (hno : ¬ ∃ a b, s = a ++ ('$' :: pt) ++ b) :
    pyReplace ('$' :: pt) repl s = s := by
  unfold pyReplace
  simp only [List.isEmpty_cons, if_false, Bool.false_eq_true]
  exact pyReplaceFuel_id _ _ _ _ hno

theorem occ_head_mem {l pt b : Str} {c₀ : Char} :
    ∀ {a : Str}, l = a ++ (c₀ :: pt) ++ b → c₀ ∈ l := by
  intro a h
  subst h
  simp

theorem occ_shift {pt : Str} :
    ∀ {p r a b : Str}, '$' ∉ p → p ++ r = a ++ ('$' :: pt) ++ b →
      ∃ a' b', r = a' ++ ('$' :: pt) ++ b' := by
  intro p
  induction p with
  | nil => intro r a b _ h; exact ⟨a, b, by simpa using h⟩
  | cons c p' ih =>
      intro r a b hd h
      cases a with
      | nil =>
          exfalso
          simp only [List.nil_append, List.cons_append, List.cons.injEq] at h
          exact hd (h.1 ▸ List.mem_cons_self c p')
      | cons a₀ a' =>
          simp only [List.cons_append, List.cons.injEq] at h
          exact ih (fun hm => hd (List.mem_cons_of_mem _ hm)) h.2

theorem seg_ne :
    ∀ (k y s' b' : Str), '\x7d' ∉ k → '\x7d' ∉ y → k ≠ y →
      y ++ '\x7d' :: s' ≠ k ++ '\x7d' :: b' := by
  intro k
  induction k with
  | nil =>
      intro y s' b' _ hy hne h
      cases y with
      | nil => exact hne rfl
      | cons c y' =>
          simp only [List.nil_append, List.cons_append, List.cons.injEq] at h
          exact hy (h.1 ▸ List.mem_cons_self c y')
  | cons d k' ih =>
      intro y s' b' hk hy hne h
      cases y with
      | nil =>
          simp only [List.nil_append, List.cons_append, List.cons.injEq] at h
          exact hk (h.1.symm ▸ List.mem_cons_self d k')
      | cons c y' =>
          simp only [List.cons_append, List.cons.injEq] at h
          obtain ⟨hcd, h'⟩ := h
          exact ih y' s' b' (fun hm => hk (List.mem_cons_of_mem _ hm))
            (fun hm => hy (List.mem_cons_of_mem _ hm))
            (fun he => hne (by rw [hcd, he])) h'

theorem placeholder_no_occ {k y p s' : Str}
    (hk : '\x7d' ∉ k) (hky : k ≠ y)
    (hp : '$' ∉ p) (hs : '$' ∉ s') (hy : '$' ∉ y) (hyr : '\x7d' ∉ y) :
    ¬ ∃ a b, p ++ '$' :: '{' :: (y ++ '\x7d' :: s') =
      a ++ ('$' :: '{' :: (k ++ ['\x7d'])) ++ b := by
  rintro ⟨a, b, hab⟩
  obtain ⟨a', b', h'⟩ := occ_shift hp hab
  cases a' with
  | nil =>
      simp only [List.nil_append, List.cons_append, List.cons.injEq,
        List.append_assoc, List.singleton_append] at h'
      exact seg_ne k y s' b' hk hyr hky h'.2.2
  | cons h₀ a'' =>
      simp only [List.cons_append, List.cons.injEq] at h'
      have hmem : '$' ∈ '{' :: (y ++ '\x7d' :: s') := occ_head_mem h'.2
      simp only [List.mem_cons, List.mem_append] at hmem
      rcases hmem with h | h | h | h
      · exact absurd h (by decide)
      · exact hy h
      · exact absurd h (by decide)
      · exact hs h

theorem expand_substitutions_fixed (subs : List (Str × Str)) (input : Str)
    (h : ∀ kv ∈ subs,
      pyReplace (chars "$\x7b" ++ kv.1 ++ chars "\x7d") kv.2 input = input) :
    expand_substitutions subs input = input := by
  induction subs with
  | nil => rfl
  | cons kv rest ih =>
      unfold expand_substitutions
      rw [List.foldl_cons, h kv (List.mem_cons_self kv rest)]
      exact ih fun kv' hm => h kv' (List.mem_cons_of_mem _ hm)

/-- Claim C4 (counterexample): a value substituted by one table entry IS
re-scanned by later entries.  With the table `a -> "$" "{" "b" "}"`,
`b -> "X"` (in that order), the input placeholder for `a` expands to `X`:
the text substituted for `a` was re-scanned and rewritten by the entry for
`b`, whereas the never-re-scanned semantics of the claim leaves it as the
placeholder for `b`. -/
theorem expand_substitutions_rescans :
    expand_substitutions
        [(chars "a", chars "$\x7bb\x7d"), (chars "b", chars "X")]
        (chars "$\x7ba\x7d") = chars "X" ∧
    expand_substitutions_norescan
        [(chars "a", chars "$\x7bb\x7d"), (chars "b", chars "X")]
        (chars "$\x7ba\x7d") = chars "$\x7bb\x7d" ∧
    expand_substitutions
        [(chars "a", chars "$\x7bb\x7d"), (chars "b", chars "X")]
        (chars "$\x7ba\x7d") ≠
      expand_substitutions_norescan
        [(chars "a", chars "$\x7bb\x7d"), (chars "b", chars "X")]
        (chars "$\x7ba\x7d") := by
  refine ⟨by decide, by decide, by decide⟩

/-- Claim C4 (amended): expansion replaces, per table entry in declaration
order, every occurrence of the entry's placeholder in a single left-to-right
pass; within one entry's pass substituted text is not re-scanned by that same
entry, but later entries do re-scan the whole string, including earlier
substitutions (demonstrated by the cascading conjunct).  A placeholder whose
name matches no table entry is left untouched verbatim (stated for inputs
whose surrounding text introduces no further `$` signs and for well-formed
names and keys, free of `$` and closing braces), and non-string inputs pass
through unchanged. -/
theorem expand_substitutions_amended :
    (∀ (subs : List (Str × Str)) (y p s : Str),
      (∀ kv ∈ subs, '\x7d' ∉ kv.1 ∧ kv.1 ≠ y) →
      '$' ∉ p → '$' ∉ s → '$' ∉ y → '\x7d' ∉ y →
      expand_substitutions subs (p ++ chars "$\x7b" ++ y ++ chars "\x7d" ++ s) =
        p ++ chars "$\x7b" ++ y ++ chars "\x7d" ++ s) ∧
    expand_substitutions
        [(chars "a", chars "$\x7bb\x7d"), (chars "b", chars "X")]
        (chars "$\x7ba\x7d") = chars "X" ∧
    (∀ (subs : List (Str × Str)) (v : YVal), (∀ s, v ≠ .str s) →
      expand_substitutions_val subs v = v) := by
  refine ⟨?_, by decide, ?_⟩
  · intro subs y p s htab hp hs hy hyr
    apply expand_substitutions_fixed
    intro kv hm
    have hpat : chars "$\x7b" ++ kv.1 ++ chars "\x7d" =
        '$' :: '{' :: (kv.1 ++ ['\x7d']) := by
      simp [chars]
    have hin : p ++ chars "$\x7b" ++ y ++ chars "\x7d" ++ s =
        p ++ '$' :: '{' :: (y ++ '\x7d' :: s) := by
      simp [chars]
    rw [hpat, hin]
    exact pyReplace_id _ _ _
      (placeholder_no_occ (htab kv hm).1 (htab kv hm).2 hp hs hy hyr)
  · intro subs v hv
    cases v with
    | str s => exact absurd rfl (hv s)
    | null => rfl
    | seq l => rfl
    | map m => rfl

/-- Witness for the amended C4 theorem at concrete inputs. -/
theorem expand_substitutions_amended_witness :
    expand_substitutions [(chars "x", chars "1")]
        (chars "a: " ++ chars "$\x7b" ++ chars "name" ++ chars "\x7d" ++ chars "!") =
      chars "a: " ++ chars "$\x7b" ++ chars "name" ++ chars "\x7d" ++ chars "!" :=
  expand_substitutions_amended.1 [(chars "x", chars "1")]
    (chars "name") (chars "a: ") (chars "!")
    (by decide) (by decide) (by decide) (by decide) (by decide)

/-- `dropLit lit s` returns `some rest` when `s = lit ++ rest`, else `none`
(matching a literal run of a regular expression). -/
def dropLit : Str → Str → Option Str
  | [], s => some s
  | _ :: _, [] => none
  | l :: ls, c :: cs => if c = l then dropLit ls cs else none

theorem dropLit_self : ∀ (lit rest : Str), dropLit lit (lit ++ rest) = some rest := by
  intro lit
  induction lit with
  | nil => intro rest; rfl
  | cons l ls ih => intro rest; simp [dropLit, ih]

/-- Character class `[^/]` of the hosting-URL patterns. -/
def notSlash (c : Char) : Bool := c ≠ '/'

/-- Character class `[^/#]` of the paste-hosting pattern. -/
def notSlashHash (c : Char) : Bool := c ≠ '/' && c ≠ '#'

/-- Character class `.` (any character but newline). -/
def notNl (c : Char) : Bool := c ≠ '\n'

theorem takeWhile_app {p : Char → Bool} {u : Str} (h : ∀ x ∈ u, p x = true) :
    ∀ r : Str, (u ++ r).takeWhile p = u ++ r.takeWhile p := by
  induction u with
  | nil => intro r; simp
  | cons c u' ih =>
      intro r
      have hc : p c = true := h c (List.mem_cons_self c u')
      simp only [List.cons_append, List.takeWhile_cons, hc, if_true, List.cons.injEq,
        true_and]
      exact ih (fun x hx => h x (List.mem_cons_of_mem _ hx)) r

theorem dropWhile_app {p : Char → Bool} {u : Str} (h : ∀ x ∈ u, p x = true) :
    ∀ r : Str, (u ++ r).dropWhile p = r.dropWhile p := by
  induction u with
  | nil => intro r; simp
  | cons c u' ih =>
      intro r
      have hc : p c = true := h c (List.mem_cons_self c u')
      simp only [List.cons_append, List.dropWhile_cons, hc, if_true]
      exact ih (fun x hx => h x (List.mem_cons_of_mem _ hx)) r

theorem takeWhile_all {p : Char → Bool} {u : Str} (h : ∀ x ∈ u, p x = true) :
    u.takeWhile p = u := by
  have := takeWhile_app h []
  simpa using this

/-- Model of `re.match` for the GitHub blob pattern (cli.py lines 271-273):
`https://github\.com/([^/]+)/([^/]+)/blob/([^/]+)/(.+)`, returning the four
groups (user, repo, branch, path). -/
def matchGithubBlob (url : Str) : Option (Str × Str × Str × Str) :=
  match dropLit (chars "https://github.com/") url with
  | none => none
  | some r1 =>
      let user := r1.takeWhile notSlash
      if user.isEmpty then none else
      match r1.dropWhile notSlash with
      | '/' :: r2 =>
          let repo := r2.takeWhile notSlash
          if repo.isEmpty then none else
          match dropLit (chars "/blob/") (r2.dropWhile notSlash) with
          | none => none
          | some r3 =>
              let branch := r3.takeWhile notSlash
              if branch.isEmpty then none else
              match r3.dropWhile notSlash with
              | '/' :: r4 =>
                  let path := r4.takeWhile notNl
                  if path.isEmpty then none else some (user, repo, branch, path)
              | _ => none
      | _ => none

/-- Model of `re.match` for the Gist pattern (cli.py lines 281-283):
`https://gist\.github\.com/([^/]+)/([^/#]+)(?:#file-(.+))?`, returning the
user, the gist id, and the optional file fragment. -/
def matchGist (url : Str) : Option (Str × Str × Option Str) :=
  match dropLit (chars "https://gist.github.com/") url with
  | none => none
  | some r1 =>
      let user := r1.takeWhile notSlash
      if user.isEmpty then none else
      match r1.dropWhile notSlash with
      | '/' :: r2 =>
          let gistId := r2.takeWhile notSlashHash
          if gistId.isEmpty then none else
          match dropLit (chars "#file-") (r2.dropWhile notSlashHash) with
          | some r3 =>
              let frag := r3.takeWhile notNl
              if frag.isEmpty then some (user, gistId, none)
              else some (user, gistId, some frag)
          | none => some (user, gistId, none)
      | _ => none

/-- Character class `[^.]` of the extension pattern. -/
def notDot (c : Char) : Bool := c ≠ '.'

/-- Model of `re.sub(r"\.([^.]+)$", lambda m: "." + m.group(1), filename)`
(cli.py line 290): the pattern matches when the filename ends in a dot
followed by a non-empty dot-free run (`ext`); the matched span is rewritten
to a dot followed by that same run.  When there is no match the string is
unchanged. -/
def subFinalExt (s : Str) : Str :=
  let ext := s.reverse.takeWhile notDot
  let pre := s.reverse.dropWhile notDot
  if ext.isEmpty then s
  else if pre.isEmpty then s
  else pre.tail.reverse ++ '.' :: ext.reverse

theorem subFinalExt_id (s : Str) : subFinalExt s = s := by
  unfold subFinalExt
  by_cases hext : (s.reverse.takeWhile notDot).isEmpty
  · rw [if_pos hext]
  · rw [if_neg hext]
    by_cases hpre : (s.reverse.dropWhile notDot).isEmpty
    · rw [if_pos hpre]
    · rw [if_neg hpre]
      have hne : s.reverse.dropWhile notDot ≠ [] := by
        intro h
        rw [h] at hpre
        exact hpre rfl
      have hhead : notDot ((s.reverse.dropWhile notDot).head hne) = false :=
        List.head_dropWhile_not notDot s.reverse hne
      have hdot : (s.reverse.dropWhile notDot).head hne = '.' := by
        by_contra hcontra
        rw [show notDot ((s.reverse.dropWhile notDot).head hne) = true from
          by simp [notDot, hcontra]] at hhead
        simp at hhead
      have hcons : s.reverse.dropWhile notDot =
          '.' :: (s.reverse.dropWhile notDot).tail := by
        conv_lhs => rw [← List.head_cons_tail _ hne, hdot]
      have hs : s = (s.reverse.dropWhile notDot).tail.reverse ++
          '.' :: (s.reverse.takeWhile notDot).reverse := by
        conv_lhs => rw [← List.reverse_reverse s,
          ← List.takeWhile_append_dropWhile notDot s.reverse]
        rw [List.reverse_append, hcons]
        simp
      conv_rhs => rw [hs]

/-- Python `file_fragment.replace("-", ".")` is the character map sending
hyphens to dots. -/
theorem pyReplace_hyphen (s : Str) :
    pyReplace (chars "-") (chars ".") s =
      s.map (fun c => if c = '-' then '.' else c) := by
  unfold pyReplace
  simp only [chars]
  have : ∀ (n : Nat) (t : Str), t.length ≤ n →
      pyReplaceFuel ['-'] ['.'] n t = t.map (fun c => if c = '-' then '.' else c) := by
    intro n
    induction n with
    | zero =>
        intro t ht
        have : t = [] := List.eq_nil_of_length_eq_zero (Nat.le_zero.mp ht)
        subst this; rfl
    | succ n ih =>
        intro t ht
        cases t with
        | nil => rfl
        | cons c rest =>
            simp only [List.length_cons] at ht
            by_cases hc : c = '-'
            · subst hc
              have hst : strStarts ['-'] ('-' :: rest) = true := by
                simp [strStarts]
              rw [pyReplaceFuel, hst]
              simp only [if_true, List.map_cons, if_pos rfl]
              simpa using ih rest (by omega)
            · have hst : strStarts ['-'] (c :: rest) = false := by
                simp [strStarts, eq_comm, hc]
              rw [pyReplaceFuel, hst]
              simp only [Bool.false_eq_true, if_false, List.map_cons, if_neg hc,
                List.cons.injEq, true_and]
              exact ih rest (by omega)
  exact this _ _ (Nat.le_refl _)

/-- `convert_to_raw_url` (cli.py lines 267-295). -/
def convert_to_raw_url (url : Str) : Str :=
  match matchGithubBlob url with
  | some (user, repo, branch, path) =>
      chars "https://raw.githubusercontent.com/" ++ user ++ chars "/" ++ repo ++
        chars "/" ++ branch ++ chars "/" ++ path
  | none =>
      match matchGist url with
      | some (user, gist_id, some file_fragment) =>
          let filename := pyReplace (chars "-") (chars ".") file_fragment
          let filename := subFinalExt filename
          chars "https://gist.githubusercontent.com/" ++ user ++ chars "/" ++
            gist_id ++ chars "/raw/" ++ filename
      | some (user, gist_id, none) =>
          chars "https://gist.githubusercontent.com/" ++ user ++ chars "/" ++
            gist_id ++ chars "/raw"
      | none => url

/-- `convert_to_esphome_github_url` (cli.py lines 401-413). -/
def convert_to_esphome_github_url (url : Str) : Option Str :=
  match matchGithubBlob url with
  | some (user, repo, branch, path) =>
      some (chars "github://" ++ user ++ chars "/" ++ repo ++ chars "/" ++ path ++
        chars "@" ++ branch)
  | none => none

theorem isEmpty_false_of_ne {u : Str} (h : u ≠ []) : u.isEmpty = false := by
  cases u with
  | nil => exact absurd rfl h
  | cons c cs => rfl

theorem notSlash_all {u : Str} (h : '/' ∉ u) : ∀ x ∈ u, notSlash x = true := by
  intro x hx
  simp only [notSlash, decide_eq_true_eq]
  intro he
  rw [he] at hx
  exact h hx

theorem notSlashHash_all {u : Str} (h1 : '/' ∉ u) (h2 : '#' ∉ u) :
    ∀ x ∈ u, notSlashHash x = true := by
  intro x hx
  simp only [notSlashHash, Bool.and_eq_true, decide_eq_true_eq]
  constructor
  · intro he; rw [he] at hx; exact h1 hx
  · intro he; rw [he] at hx; exact h2 hx

theorem notNl_all {u : Str} (h : '\n' ∉ u) : ∀ x ∈ u, notNl x = true := by
  intro x hx
  simp only [notNl, decide_eq_true_eq]
  intro he
  rw [he] at hx
  exact h hx

theorem takeWhile_notSlash_slash (r : Str) :
    List.takeWhile notSlash ('/' :: r) = [] := rfl

theorem dropWhile_notSlash_slash (r : Str) :
    List.dropWhile notSlash ('/' :: r) = '/' :: r := rfl

theorem takeWhile_notSlashHash_file (f : Str) :
    List.takeWhile notSlashHash (chars "#file-" ++ f) = [] := rfl

theorem dropWhile_notSlashHash_file (f : Str) :
    List.dropWhile notSlashHash (chars "#file-" ++ f) = chars "#file-" ++ f := rfl

theorem takeWhile_notSlash_blob (x : Str) :
    List.takeWhile notSlash (chars "/blob/" ++ x) = [] := rfl

theorem dropWhile_notSlash_blob (x : Str) :
    List.dropWhile notSlash (chars "/blob/" ++ x) = chars "/blob/" ++ x := rfl

theorem dropWhile_all {p : Char → Bool} {u : Str} (h : ∀ x ∈ u, p x = true) :
    u.dropWhile p = [] := by
  have := dropWhile_app h []
  simpa using this

theorem matchGist_parse (u i f : Str) (hu : u ≠ []) (hus : '/' ∉ u)
    (hi : i ≠ []) (his : '/' ∉ i) (hih : '#' ∉ i) (hf : f ≠ []) (hfn : '\n' ∉ f) :
    matchGist (chars "https://gist.github.com/" ++
        (u ++ '/' :: (i ++ (chars "#file-" ++ f)))) = some (u, i, some f) := by
  unfold matchGist
  simp [dropLit_self, takeWhile_app (notSlash_all hus),
    dropWhile_app (notSlash_all hus), takeWhile_notSlash_slash,
    dropWhile_notSlash_slash, isEmpty_false_of_ne hu,
    takeWhile_app (notSlashHash_all his hih),
    dropWhile_app (notSlashHash_all his hih),
    takeWhile_notSlashHash_file, dropWhile_notSlashHash_file,
    isEmpty_false_of_ne hi, takeWhile_all (notNl_all hfn),
    isEmpty_false_of_ne hf]

theorem matchGist_parse_nofrag (u i : Str) (hu : u ≠ []) (hus : '/' ∉ u)
    (hi : i ≠ []) (his : '/' ∉ i) (hih : '#' ∉ i) :
    matchGist (chars "https://gist.github.com/" ++ (u ++ '/' :: i)) =
      some (u, i, none) := by
  unfold matchGist
  simp [dropLit_self, takeWhile_app (notSlash_all hus),
    dropWhile_app (notSlash_all hus), takeWhile_notSlash_slash,
    dropWhile_notSlash_slash, isEmpty_false_of_ne hu,
    takeWhile_all (notSlashHash_all his hih),
    dropWhile_all (notSlashHash_all his hih),
    isEmpty_false_of_ne hi, dropLit]

theorem matchGithubBlob_parse (u r b p : Str)
    (hu : u ≠ []) (hus : '/' ∉ u) (hr : r ≠ []) (hrs : '/' ∉ r)
    (hb : b ≠ []) (hbs : '/' ∉ b) (hp : p ≠ []) (hpn : '\n' ∉ p) :
    matchGithubBlob (chars "https://github.com/" ++
        (u ++ '/' :: (r ++ (chars "/blob/" ++ (b ++ '/' :: p))))) =
      some (u, r, b, p) := by
  unfold matchGithubBlob
  simp [dropLit_self, takeWhile_app (notSlash_all hus),
    dropWhile_app (notSlash_all hus), takeWhile_notSlash_slash,
    dropWhile_notSlash_slash, isEmpty_false_of_ne hu,
    takeWhile_app (notSlash_all hrs), dropWhile_app (notSlash_all hrs),
    takeWhile_notSlash_blob, dropWhile_notSlash_blob, isEmpty_false_of_ne hr,
    takeWhile_app (notSlash_all hbs), dropWhile_app (notSlash_all hbs),
    isEmpty_false_of_ne hb, takeWhile_all (notNl_all hpn),
    isEmpty_false_of_ne hp]

/-- Claim C9: for a paste-hosting URL `https://gist.github.com/<u>/<id>` with
a `#file-<fragment>` fragment, the raw-URL rewrite reconstructs the filename
from the fragment by turning every hyphen into a dot; the final-extension
rewrite step (`subFinalExt`, the model of the `re.sub` on the last extension
separator) touches only the final extension span and in fact leaves the name
unchanged; with no file fragment, the rewritten raw URL omits the filename
entirely. -/
theorem convert_to_raw_url_gist :
    (∀ u i f : Str, u ≠ [] → '/' ∉ u → i ≠ [] → '/' ∉ i → '#' ∉ i →
      f ≠ [] → '\n' ∉ f →
      convert_to_raw_url (chars "https://gist.github.com/" ++
          (u ++ '/' :: (i ++ (chars "#file-" ++ f)))) =
        chars "https://gist.githubusercontent.com/" ++ u ++ chars "/" ++ i ++
          chars "/raw/" ++ f.map (fun c => if c = '-' then '.' else c)) ∧
    (∀ u i : Str, u ≠ [] → '/' ∉ u → i ≠ [] → '/' ∉ i → '#' ∉ i →
      convert_to_raw_url (chars "https://gist.github.com/" ++ (u ++ '/' :: i)) =
        chars "https://gist.githubusercontent.com/" ++ u ++ chars "/" ++ i ++
          chars "/raw") ∧
    (∀ g : Str, subFinalExt g = g) := by
  refine ⟨?_, ?_, subFinalExt_id⟩
  · intro u i f hu hus hi his hih hf hfn
    unfold convert_to_raw_url
    rw [show matchGithubBlob (chars "https://gist.github.com/" ++
        (u ++ '/' :: (i ++ (chars "#file-" ++ f)))) = none from rfl]
    rw [matchGist_parse u i f hu hus hi his hih hf hfn]
    dsimp only
    rw [subFinalExt_id, pyReplace_hyphen]
  · intro u i hu hus hi his hih
    unfold convert_to_raw_url
    rw [show matchGithubBlob (chars "https://gist.github.com/" ++
        (u ++ '/' :: i)) = none from rfl]
    rw [matchGist_parse_nofrag u i hu hus hi his hih]

/-- Witness for the C9 theorem at concrete inputs. -/
theorem convert_to_raw_url_gist_witness :
    convert_to_raw_url (chars "https://gist.github.com/" ++
        (chars "alice" ++ '/' :: (chars "abc123" ++
          (chars "#file-" ++ chars "kitchen-yaml")))) =
      chars "https://gist.githubusercontent.com/" ++ chars "alice" ++ chars "/" ++
        chars "abc123" ++ chars "/raw/" ++
        (chars "kitchen-yaml").map (fun c => if c = '-' then '.' else c) :=
  convert_to_raw_url_gist.1 (chars "alice") (chars "abc123") (chars "kitchen-yaml")
    (by decide) (by decide) (by decide) (by decide) (by decide) (by decide) (by decide)

/-- Python whitespace, for `str.lstrip()`. -/
def isPySpace (c : Char) : Bool :=
  c = ' ' ∨ c = '\t' ∨ c = '\n' ∨ c = '\r' ∨ c = '\x0b' ∨ c = '\x0c'

/-- Model of Python `str.lstrip()`. -/
def pyLstrip (s : Str) : Str := s.dropWhile isPySpace

/-- Model of Python `str.rstrip("/")`: remove every trailing slash. -/
def rstripSlash (s : Str) : Str :=
  (s.reverse.dropWhile (fun c => c = '/')).reverse

/-- `create_factory_yaml` (cli.py lines 416-471), modelled as the text that
is written to the factory file: the package-import block, then (only when
the version is truthy) the project-version/OTA/update/http_request block
whose update source is the publish URL with trailing slashes stripped
followed by `/manifest.json`, then (only when a package import URL was
derived) the dashboard-import block; the whole text is `lstrip`-ped before
writing. -/
def create_factory_yaml_content (original_filename publish_url : Str)
    (package_import_url : Option Str) (version : Option Str) : Str :=
  let factory0 :=
    chars "# Factory firmware - generated by ewt-gen\n# Users should import " ++
      original_filename ++
      chars " directly, not this file.\n\npackages:\n  original: !include " ++
      original_filename ++ chars "\n"
  let factory1 :=
    match version with
    | some v =>
        if v ≠ [] then
          let publish_url := rstripSlash publish_url
          let manifest_url := publish_url ++ chars "/manifest.json"
          factory0 ++
            chars "\nesphome:\n  project:\n    version: \"" ++ v ++
            chars "\"\n\nota:\n  - platform: http_request\n    id: ota_http_request\n\nupdate:\n  - platform: http_request\n    id: update_http_request\n    name: Firmware\n    source: " ++
            manifest_url ++ chars "\n\nhttp_request:\n"
        else factory0
    | none => factory0
  let factory2 :=
    match package_import_url with
    | some piu =>
        factory1 ++ chars "\ndashboard_import:\n  package_import_url: " ++ piu ++
          chars "\n"
    | none => factory1
  pyLstrip factory2

/-- Split a string into its newline-separated lines. -/
def linesOf : Str → List Str
  | [] => [[]]
  | c :: rest =>
      if c = '\n' then [] :: linesOf rest
      else
        match linesOf rest with
        | l :: ls => (c :: l) :: ls
        | [] => [[c]]

/-- Join lines, terminating each with a newline. -/
def joinLines : List Str → Str
  | [] => []
  | l :: ls => l ++ '\n' :: joinLines ls

theorem linesOf_ne_nil (s : Str) : linesOf s ≠ [] := by
  cases s with
  | nil => simp [linesOf]
  | cons c rest =>
      unfold linesOf
      split_ifs
      · simp
      · cases linesOf rest <;> simp

theorem linesOf_line_append {xs : Str} (h : '\n' ∉ xs) (ys : Str) :
    linesOf (xs ++ '\n' :: ys) = xs :: linesOf ys := by
  induction xs with
  | nil => simp [linesOf]
  | cons c xs' ih =>
      have hc : ¬ c = '\n' := fun he => h (he ▸ List.mem_cons_self c xs')
      have ih' := ih fun hm => h (List.mem_cons_of_mem _ hm)
      show linesOf (c :: (xs' ++ '\n' :: ys)) = (c :: xs') :: linesOf ys
      conv_lhs => unfold linesOf
      rw [if_neg hc, ih']

theorem linesOf_joinLines {L : List Str} (h : ∀ l ∈ L, '\n' ∉ l) :
    linesOf (joinLines L) = L ++ [[]] := by
  induction L with
  | nil => rfl
  | cons l ls ih =>
      unfold joinLines
      rw [linesOf_line_append (h l (List.mem_cons_self l ls)),
        ih fun x hx => h x (List.mem_cons_of_mem _ hx)]
      rfl

theorem no_nl_app {a b : Str} (ha : '\n' ∉ a) (hb : '\n' ∉ b) :
    '\n' ∉ a ++ b := by
  intro h
  rcases List.mem_append.mp h with h | h
  · exact ha h
  · exact hb h

theorem mem_of_mem_dropWhile {p : Char → Bool} {x : Char} :
    ∀ {l : Str}, x ∈ l.dropWhile p → x ∈ l := by
  intro l
  induction l with
  | nil => intro h; simp at h
  | cons c rest ih =>
      intro h
      rw [List.dropWhile_cons] at h
      by_cases hc : p c = true
      · simp only [hc, if_true] at h
        exact List.mem_cons_of_mem _ (ih h)
      · simp only [hc, if_false] at h
        exact h

theorem no_nl_rstripSlash {pub : Str} (h : '\n' ∉ pub) :
    '\n' ∉ rstripSlash pub := by
  intro hm
  unfold rstripSlash at hm
  rw [List.mem_reverse] at hm
  have := mem_of_mem_dropWhile hm
  rw [List.mem_reverse] at this
  exact h this

/-- The package-import lines of the factory overlay. -/
def factoryLinesBase (name : Str) : List Str :=
  [chars "# Factory firmware - generated by ewt-gen",
   chars "# Users should import " ++ name ++ chars " directly, not this file.",
   [],
   chars "packages:",
   chars "  original: !include " ++ name]

/-- The OTA/update lines of the factory overlay. -/
def factoryLinesOta (pub v : Str) : List Str :=
  [[],
   chars "esphome:",
   chars "  project:",
   chars "    version: \"" ++ v ++ chars "\"",
   [],
   chars "ota:",
   chars "  - platform: http_request",
   chars "    id: ota_http_request",
   [],
   chars "update:",
   chars "  - platform: http_request",
   chars "    id: update_http_request",
   chars "    name: Firmware",
   chars "    source: " ++ (rstripSlash pub ++ chars "/manifest.json"),
   [],
   chars "http_request:"]

/-- The dashboard-import lines of the factory overlay. -/
def factoryLinesDash (piu : Str) : List Str :=
  [[],
   chars "dashboard_import:",
   chars "  package_import_url: " ++ piu]

theorem factoryLinesBase_no_nl {name : Str} (hname : '\n' ∉ name) :
    ∀ l ∈ factoryLinesBase name, '\n' ∉ l := by
  intro l hl
  simp only [factoryLinesBase, List.mem_cons, List.not_mem_nil, or_false] at hl
  rcases hl with rfl | rfl | rfl | rfl | rfl
  · decide
  · exact no_nl_app (no_nl_app (by decide) hname) (by decide)
  · decide
  · decide
  · exact no_nl_app (by decide) hname

theorem factoryLinesOta_no_nl {pub v : Str} (hpub : '\n' ∉ pub) (hv : '\n' ∉ v) :
    ∀ l ∈ factoryLinesOta pub v, '\n' ∉ l := by
  intro l hl
  simp only [factoryLinesOta, List.mem_cons, List.not_mem_nil, or_false] at hl
  rcases hl with rfl | rfl | rfl | rfl | rfl | rfl | rfl | rfl | rfl | rfl | rfl |
    rfl | rfl | rfl | rfl | rfl
  · decide
  · decide
  · decide
  · exact no_nl_app (no_nl_app (by decide) hv) (by decide)
  · decide
  · decide
  · decide
  · decide
  · decide
  · decide
  · decide
  · decide
  · decide
  · exact no_nl_app (by decide) (no_nl_app (no_nl_rstripSlash hpub) (by decide))
  · decide
  · decide

theorem factoryLinesDash_no_nl {piu : Str} (hpiu : '\n' ∉ piu) :
    ∀ l ∈ factoryLinesDash piu, '\n' ∉ l := by
  intro l hl
  simp only [factoryLinesDash, List.mem_cons, List.not_mem_nil, or_false] at hl
  rcases hl with rfl | rfl | rfl
  · decide
  · decide
  · exact no_nl_app (by decide) hpiu

theorem factory_lines_eq_nov (name pub : Str) (piu : Option Str)
    (hname : '\n' ∉ name) (hpiu : ∀ u, piu = some u → '\n' ∉ u) :
    linesOf (create_factory_yaml_content name pub piu none) =
      factoryLinesBase name ++
        (match piu with
         | some u => factoryLinesDash u
         | none => []) ++ [[]] := by
  rcases piu with _ | u
  · have hc : create_factory_yaml_content name pub none none =
        joinLines (factoryLinesBase name) := by
      unfold create_factory_yaml_content factoryLinesBase
      simp only [joinLines, List.append_assoc]
      rfl
    rw [hc, linesOf_joinLines (factoryLinesBase_no_nl hname)]
    simp
  · have hu := hpiu u rfl
    have hc : create_factory_yaml_content name pub (some u) none =
        joinLines (factoryLinesBase name ++ factoryLinesDash u) := by
      unfold create_factory_yaml_content factoryLinesBase factoryLinesDash
      simp only [joinLines, List.append_assoc, List.cons_append, List.nil_append]
      rfl
    rw [hc, linesOf_joinLines (List.forall_mem_append.mpr
      ⟨factoryLinesBase_no_nl hname, factoryLinesDash_no_nl hu⟩)]

theorem factory_lines_eq (name pub v : Str) (piu : Option Str)
    (hname : '\n' ∉ name) (hpub : '\n' ∉ pub) (hv : '\n' ∉ v) (hvne : v ≠ [])
    (hpiu : ∀ u, piu = some u → '\n' ∉ u) :
    linesOf (create_factory_yaml_content name pub piu (some v)) =
      factoryLinesBase name ++ factoryLinesOta pub v ++
        (match piu with
         | some u => factoryLinesDash u
         | none => []) ++ [[]] := by
  rcases piu with _ | u
  · have hc : create_factory_yaml_content name pub none (some v) =
        joinLines (factoryLinesBase name ++ factoryLinesOta pub v) := by
      unfold create_factory_yaml_content factoryLinesBase factoryLinesOta
      dsimp only
      rw [if_pos hvne]
      simp only [joinLines, List.append_assoc, List.cons_append, List.nil_append]
      rfl
    rw [hc, linesOf_joinLines (List.forall_mem_append.mpr
      ⟨factoryLinesBase_no_nl hname, factoryLinesOta_no_nl hpub hv⟩)]
    simp
  · have hu := hpiu u rfl
    have hc : create_factory_yaml_content name pub (some u) (some v) =
        joinLines (factoryLinesBase name ++ factoryLinesOta pub v ++
          factoryLinesDash u) := by
      unfold create_factory_yaml_content factoryLinesBase factoryLinesOta
        factoryLinesDash
      dsimp only
      rw [if_pos hvne]
      simp only [joinLines, List.append_assoc, List.cons_append, List.nil_append]
      rfl
    rw [hc, linesOf_joinLines (List.forall_mem_append.mpr
      ⟨List.forall_mem_append.mpr
        ⟨factoryLinesBase_no_nl hname, factoryLinesOta_no_nl hpub hv⟩,
       factoryLinesDash_no_nl hu⟩)]

/-- A top-level section header line of a YAML document: non-empty, not
indented, not a comment. -/
def isHeaderLine (l : Str) : Bool :=
  match l with
  | [] => false
  | c :: _ => ¬(c = ' ' ∨ c = '#')

/-- Accumulate the top-level sections of a line list: each header line opens
a section whose body is the non-blank lines up to the next header. -/
def sectionsAux (cur : Option (Str × List Str)) : List Str → List (Str × List Str)
  | [] =>
      match cur with
      | none => []
      | some (h, b) => [(h, b.reverse)]
  | l :: rest =>
      if isHeaderLine l then
        (match cur with
         | none => []
         | some (h, b) => [(h, b.reverse)]) ++ sectionsAux (some (l, [])) rest
      else
        match cur with
        | none => sectionsAux none rest
        | some (h, b) =>
            sectionsAux (some (h, if l.isEmpty then b else l :: b)) rest

/-- The top-level sections (header line with body lines) of a line list. -/
def sectionsOf (ls : List Str) : List (Str × List Str) := sectionsAux none ls

/-- Claim C1: with no known version the factory overlay has no `ota:` and no
`update:` section but does have a `packages:` section importing the original
file by relative name; with a known (truthy) version it has exactly one
`ota:` section holding a single http_request platform entry and exactly one
`update:` section holding a single http_request platform entry whose source
is the publish URL with trailing slashes stripped followed by
`/manifest.json`; in particular publish URL `https://example.com/fw/` yields
source `https://example.com/fw/manifest.json` with no double slash. -/
theorem create_factory_yaml_claim (name pub v : Str) (piu : Option Str)
    (hname : '\n' ∉ name) (hpub : '\n' ∉ pub) (hv : '\n' ∉ v) (hvne : v ≠ [])
    (hpiu : ∀ u, piu = some u → '\n' ∉ u) :
    ((sectionsOf (linesOf (create_factory_yaml_content name pub piu none))).filter
        (fun sc => sc.1 = chars "ota:") = [] ∧
     (sectionsOf (linesOf (create_factory_yaml_content name pub piu none))).filter
        (fun sc => sc.1 = chars "update:") = [] ∧
     (sectionsOf (linesOf (create_factory_yaml_content name pub piu none))).filter
        (fun sc => sc.1 = chars "packages:") =
       [(chars "packages:", [chars "  original: !include " ++ name])]) ∧
    ((sectionsOf (linesOf (create_factory_yaml_content name pub piu (some v)))).filter
        (fun sc => sc.1 = chars "ota:") =
       [(chars "ota:",
         [chars "  - platform: http_request",
          chars "    id: ota_http_request"])] ∧
     (sectionsOf (linesOf (create_factory_yaml_content name pub piu (some v)))).filter
        (fun sc => sc.1 = chars "update:") =
       [(chars "update:",
         [chars "  - platform: http_request",
          chars "    id: update_http_request",
          chars "    name: Firmware",
          chars "    source: " ++ (rstripSlash pub ++ chars "/manifest.json")])] ∧
     (sectionsOf (linesOf (create_factory_yaml_content name pub piu (some v)))).filter
        (fun sc => sc.1 = chars "packages:") =
       [(chars "packages:", [chars "  original: !include " ++ name])]) ∧
    rstripSlash (chars "https://example.com/fw/") ++ chars "/manifest.json" =
      chars "https://example.com/fw/manifest.json" := by
  rw [factory_lines_eq name pub v piu hname hpub hv hvne hpiu,
      factory_lines_eq_nov name pub piu hname hpiu]
  rcases piu with _ | u <;>
    exact ⟨⟨rfl, rfl, rfl⟩, ⟨rfl, rfl, rfl⟩, by decide⟩

/-- Witness for the C1 theorem at concrete inputs. -/
theorem create_factory_yaml_claim_witness :
    (sectionsOf (linesOf (create_factory_yaml_content (chars "kitchen.yaml")
        (chars "https://example.com/fw/") none (some (chars "1.2.3"))))).filter
        (fun sc => sc.1 = chars "update:") =
      [(chars "update:",
        [chars "  - platform: http_request",
         chars "    id: update_http_request",
         chars "    name: Firmware",
         chars "    source: " ++ (rstripSlash (chars "https://example.com/fw/") ++
           chars "/manifest.json")])] :=
  (create_factory_yaml_claim (chars "kitchen.yaml") (chars "https://example.com/fw/")
    (chars "1.2.3") none (by decide) (by decide) (by decide) (by decide)
    (fun u hu => Option.noConfusion hu)).2.1.2.1

/-- Claim C6 (counterexample): a recognized paste-hosting (gist) URL is
rewritten by the source resolver (so it is a "recognized hosting URL" in the
claim's sense), yet `convert_to_esphome_github_url` returns `None` for it, so
`main` passes no package import URL to overlay synthesis and the resulting
overlay has no dashboard-import section, even with publish requested and a
version known. -/
theorem gist_source_no_dashboard_import :
    convert_to_raw_url (chars "https://gist.github.com/alice/abc123") ≠
      chars "https://gist.github.com/alice/abc123" ∧
    convert_to_esphome_github_url (chars "https://gist.github.com/alice/abc123") =
      none ∧
    (sectionsOf (linesOf (create_factory_yaml_content (chars "config.yaml")
        (chars "https://example.com") none (some (chars "1.0"))))).filter
        (fun sc => sc.1 = chars "dashboard_import:") = [] := by
  refine ⟨by decide, by decide, by decide⟩

/-- Claim C6 (amended): for a GitHub-style blob URL source with remote-update
distribution requested, the import URL is `github://<owner>/<repo>/<path>@<ref>`
(no blob segment), and the synthesized overlay contains exactly one
dashboard-import section carrying it, independently of whether a version is
known.  Recognized paste-hosting URLs yield no import URL and hence no
dashboard-import section. -/
theorem dashboard_import_github_blob (u r b p name pub v : Str)
    (hu : u ≠ []) (hus : '/' ∉ u) (hr : r ≠ []) (hrs : '/' ∉ r)
    (hb : b ≠ []) (hbs : '/' ∉ b) (hp : p ≠ []) (hpn : '\n' ∉ p)
    (hname : '\n' ∉ name) (hpub : '\n' ∉ pub) (hv : '\n' ∉ v) (hvne : v ≠ []) :
    (convert_to_esphome_github_url (chars "https://github.com/" ++
        (u ++ '/' :: (r ++ (chars "/blob/" ++ (b ++ '/' :: p))))) =
      some (chars "github://" ++ u ++ chars "/" ++ r ++ chars "/" ++ p ++
        chars "@" ++ b)) ∧
    (∀ importUrl : Str, '\n' ∉ importUrl →
      ((sectionsOf (linesOf (create_factory_yaml_content name pub
            (some importUrl) none))).filter
          (fun sc => sc.1 = chars "dashboard_import:") =
        [(chars "dashboard_import:",
          [chars "  package_import_url: " ++ importUrl])] ∧
       (sectionsOf (linesOf (create_factory_yaml_content name pub
            (some importUrl) (some v)))).filter
          (fun sc => sc.1 = chars "dashboard_import:") =
        [(chars "dashboard_import:",
          [chars "  package_import_url: " ++ importUrl])])) := by
  constructor
  · unfold convert_to_esphome_github_url
    rw [matchGithubBlob_parse u r b p hu hus hr hrs hb hbs hp hpn]
  · intro importUrl himp
    constructor
    · rw [factory_lines_eq_nov name pub (some importUrl) hname
        (fun x hx => by cases hx; exact himp)]
      rfl
    · rw [factory_lines_eq name pub v (some importUrl) hname hpub hv hvne
        (fun x hx => by cases hx; exact himp)]
      rfl

/-- Witness for the amended C6 theorem at concrete inputs. -/
theorem dashboard_import_github_blob_witness :
    convert_to_esphome_github_url (chars "https://github.com/" ++
        (chars "alice" ++ '/' :: (chars "repo" ++ (chars "/blob/" ++
          (chars "main" ++ '/' :: chars "kitchen.yaml"))))) =
      some (chars "github://" ++ chars "alice" ++ chars "/" ++ chars "repo" ++
        chars "/" ++ chars "kitchen.yaml" ++ chars "@" ++ chars "main") :=
  (dashboard_import_github_blob (chars "alice") (chars "repo") (chars "main")
    (chars "kitchen.yaml") (chars "config.yaml") (chars "https://example.com")
    (chars "1.0") (by decide) (by decide) (by decide) (by decide) (by decide)
    (by decide) (by decide) (by decide) (by decide) (by decide) (by decide)
    (by decide)).1

/-- The stage outcomes of one `main` invocation (cli.py lines 65-197): which
source kind was given and which downstream stages succeed.  External effects
(network, compiler, filesystem) are abstracted to success flags. -/
structure MainScenario where
  isUrl : Bool
  downloadOk : Bool
  localExists : Bool
  parseOk : Bool
  skipCompile : Bool
  firmwareGiven : Bool
  compileOk : Bool
  firmwareFound : Bool
  chipKnown : Bool
  siteOk : Bool

/-- Result of one invocation: whether it succeeded, whether a scratch
directory was created, and whether it was removed. -/
structure MainOutcome where
  ok : Bool
  tempCreated : Bool
  tempRemoved : Bool
deriving DecidableEq

/-- Control-flow model of `main` (cli.py lines 80-197): the scratch directory
is created by `download_yaml` only after a successful download; each failing
downstream stage raises `ClickException`, leaving `main` before the final
`shutil.rmtree(temp_dir)` (cli.py lines 193-194), which runs only after
`generate_site` has returned; there is no try/finally. -/
def main_pipeline (sc : MainScenario) : MainOutcome :=
  if sc.isUrl then
    if !sc.downloadOk then ⟨false, false, false⟩
    else if !sc.parseOk then ⟨false, true, false⟩
    else if !sc.skipCompile && !sc.firmwareGiven && !sc.compileOk then
      ⟨false, true, false⟩
    else if !sc.firmwareGiven && !sc.firmwareFound then ⟨false, true, false⟩
    else if !sc.chipKnown then ⟨false, true, false⟩
    else if !sc.siteOk then ⟨false, true, false⟩
    else ⟨true, true, true⟩
  else
    if !sc.localExists then ⟨false, false, false⟩
    else if !sc.parseOk then ⟨false, false, false⟩
    else if !sc.skipCompile && !sc.firmwareGiven && !sc.compileOk then
      ⟨false, false, false⟩
    else if !sc.firmwareGiven && !sc.firmwareFound then ⟨false, false, false⟩
    else if !sc.chipKnown then ⟨false, false, false⟩
    else if !sc.siteOk then ⟨false, false, false⟩
    else ⟨true, false, false⟩

/-- Claim C7 (code evaluation): with a URL source whose download and parse
succeed but whose compilation fails, the scratch directory is created and
never removed — `main` has no try/finally, the `rmtree` runs only on the
success path after `generate_site`, so cleanup is skipped on every failing
exit path.  The success path does remove it.  The third conjunct refutes the
claimed all-exit-paths guarantee. -/
theorem main_pipeline_leaks_scratch_dir :
    main_pipeline ⟨true, true, true, true, false, false, false, false, true, true⟩ =
      ⟨false, true, false⟩ ∧
    main_pipeline ⟨true, true, true, true, false, false, true, true, true, true⟩ =
      ⟨true, true, true⟩ ∧
    ¬ (∀ sc : MainScenario, (main_pipeline sc).tempCreated = true →
        (main_pipeline sc).tempRemoved = true) := by
  refine ⟨rfl, rfl, fun h => ?_⟩
  exact absurd
    (h ⟨true, true, true, true, false, false, false, false, true, true⟩ rfl)
    (by decide)

/-- YAML document nodes before construction: a type tag together with scalar
text, an item list, or key/value pairs (mapping keys modelled as
already-resolved strings). -/
inductive YamlNode where
  | scalar : Str → Str → YamlNode
  | sequence : Str → List YamlNode → YamlNode
  | mapping : Str → List (Str × YamlNode) → YamlNode

/-- A custom (vendor-extension) tag: one starting with `!`. -/
def isCustomTag : Str → Bool
  | '!' :: _ => true
  | _ => false

mutual

/-- Modelled from the spec (section 4.2) and `load_esphome_yaml` (cli.py
lines 200-216): the YAML library's construction dispatch for `SafeLoader`
extended with `add_multi_constructor("!", constructor_undefined)`.  The
library itself is not part of this repository; modelled here: the standard
str/null/seq/map tags construct the plain value, any `!`-prefixed tag is
handled by `constructor_undefined` (cli.py lines 206-212), which returns the
underlying scalar as a string, sequence as a constructed list, or mapping as
a constructed map; any other tag is a `ConstructorError` (`none`). -/
def constructNode : YamlNode → Option YVal
  | .scalar t v =>
      if isCustomTag t then some (.str v)
      else if t = chars "tag:yaml.org,2002:str" then some (.str v)
      else if t = chars "tag:yaml.org,2002:null" then some .null
      else none
  | .sequence t items =>
      if isCustomTag t ∨ t = chars "tag:yaml.org,2002:seq" then
        match constructSeq items with
        | some l => some (.seq l)
        | none => none
      else none
  | .mapping t prs =>
      if isCustomTag t ∨ t = chars "tag:yaml.org,2002:map" then
        match constructMap prs with
        | some m => some (.map m)
        | none => none
      else none

def constructSeq : List YamlNode → Option (List YVal)
  | [] => some []
  | n :: rest =>
      match constructNode n, constructSeq rest with
      | some v, some l => some (v :: l)
      | _, _ => none

def constructMap : List (Str × YamlNode) → Option (List (Str × YVal))
  | [] => some []
  | (k, n) :: rest =>
      match constructNode n, constructMap rest with
      | some v, some m => some ((k, v) :: m)
      | _, _ => none

end

/-- Claim C8: construction of a node carrying any `!`-prefixed custom tag
never fails on account of the tag and degrades to the plain underlying
value: a scalar-tagged node becomes its string, a sequence-tagged node the
ordered list of its constructed items, a mapping-tagged node the mapping of
its constructed values. -/
theorem constructNode_custom_tag (t : Str) (ht : isCustomTag t = true) :
    (∀ v : Str, constructNode (.scalar t v) = some (.str v)) ∧
    (∀ (items : List YamlNode) (l : List YVal), constructSeq items = some l →
      constructNode (.sequence t items) = some (.seq l)) ∧
    (∀ (prs : List (Str × YamlNode)) (m : List (Str × YVal)),
      constructMap prs = some m →
      constructNode (.mapping t prs) = some (.map m)) := by
  refine ⟨fun v => ?_, fun items l hl => ?_, fun prs m hm => ?_⟩
  · unfold constructNode
    rw [if_pos ht]
  · unfold constructNode
    rw [if_pos (Or.inl ht), hl]
  · unfold constructNode
    rw [if_pos (Or.inl ht), hm]

/-- Witness for the C8 theorem at a concrete node: a `!lambda`-tagged
sequence holding a `!secret`-tagged scalar constructs to the plain list of
the plain string. -/
theorem constructNode_custom_tag_witness :
    constructNode (.sequence (chars "!lambda")
        [.scalar (chars "!secret") (chars "wifi")]) =
      some (.seq [.str (chars "wifi")]) := by
  refine (constructNode_custom_tag (chars "!lambda") (by decide)).2.1
    [.scalar (chars "!secret") (chars "wifi")] [.str (chars "wifi")] ?_
  rw [constructSeq, constructNode]
  rw [if_pos (by decide : isCustomTag (chars "!secret") = true)]
  rw [constructSeq]
